import Mathlib

/-!
Shallow embedding of the WebSocket runtime and value codec of `src/bin/ws.mjs`
(repository JG), together with proofs about the claims made by its
specification.

Modelling conventions:
* Machine bytes are `ℕ` (values < 256 where the source guarantees it);
  `Uint8Array.from` coercion is modelled by mapping `· % 256`.
* JavaScript strings are represented by their UTF-8 code-unit sequences
  (`List ℕ`); the external helpers `utf8Decode`/`utf8Encode` are mutually
  inverse bijections between strings and their UTF-8 bytes, hence both are
  the identity on this representation.
* `BigInt` values and integral `Number`s inside the int32 range are both
  modelled by `Value.int` (packValue converts either through `BigInt(input)`
  and treats them identically); a `Number` failing the `~~input === input`
  test is modelled by `Value.float64` carrying its IEEE-754 bit pattern,
  which the codec moves as an opaque big-endian 8-byte field
  (`DataView.setFloat64` / `getFloat64` without a littleEndian flag).
* Typed-array elements are modelled by their fixed-width bit patterns;
  `new Uint8Array(input.buffer)` exposes the platform byte order, which is
  little-endian on every supported host, so elements serialize through
  `leBytes`.
* Exceptions are `Except.error` with a short label of the thrown error.
-/

/-- Big-endian byte expansion: `beBytes w n` is the `w`-byte big-endian
encoding of `n % 256^w`, as produced by `DataView.setUintN`/`uint64ToBytes`. -/
def beBytes : ℕ → ℕ → List ℕ
  | 0, _ => []
  | w + 1, n => n / 256 ^ w % 256 :: beBytes w n

/-- Big-endian interpretation of a byte list, as read by
`DataView.getBigUint64` and friends. -/
def beNat : List ℕ → ℕ
  | [] => 0
  | b :: bs => b * 256 ^ bs.length + beNat bs

/-- Little-endian byte expansion: how a typed array's element bit pattern
lies in memory on a little-endian host (`new Uint8Array(input.buffer)`). -/
def leBytes : ℕ → ℕ → List ℕ
  | 0, _ => []
  | w + 1, n => n % 256 :: leBytes w (n / 256)

/-- Little-endian interpretation of a byte list. -/
def leNat : List ℕ → ℕ
  | [] => 0
  | b :: bs => b + 256 * leNat bs

/-- Minimal big-endian magnitude bytes of a natural number: the model of
`input.toString(16)` padded to even length and split into hex pairs
(`packValue`, tags 27/28). -/
def magBytes (n : ℕ) : List ℕ :=
  if n < 256 then [n] else magBytes (n / 256) ++ [n % 256]
decreasing_by exact Nat.div_lt_self (by omega) (by omega)

/-- Regroup a raw byte list into `e`-byte little-endian element patterns:
the model of `new TypedArrayCtor(buffer)` reinterpreting bytes.  The `fuel`
argument only drives structural recursion; every caller passes a fuel at
least the number of elements, so it never cuts the result short. -/
def toElems (e : ℕ) : ℕ → List ℕ → List ℕ
  | _, [] => []
  | 0, _ :: _ => []
  | fuel + 1, b :: raw =>
      leNat (b :: raw.take (e - 1)) :: toElems e fuel (raw.drop (e - 1))

/-- Two's-complement reading of a `w`-byte unsigned pattern, as done by
`DataView.getIntN`. -/
def sdec (w p : ℕ) : ℤ :=
  if 2 * p < 2 ^ (8 * w) then (p : ℤ) else (p : ℤ) - 2 ^ (8 * w)

/-- The ten homogeneous typed-array kinds accepted by `packValue`
(`Uint8Array … Float64Array`; `Uint8ClampedArray` is absent and falls to the
JSON catch-all in the source). -/
inductive TAKind
  | u8 | u16 | u32 | u64 | i8 | i16 | i32 | i64 | f32 | f64
deriving DecidableEq, Repr

/-- `BYTES_PER_ELEMENT` of each typed-array kind. -/
def elemSize : TAKind → ℕ
  | .u8 => 1 | .u16 => 2 | .u32 => 4 | .u64 => 8
  | .i8 => 1 | .i16 => 2 | .i32 => 4 | .i64 => 8
  | .f32 => 4 | .f64 => 8

/-- Type tag of each typed-array kind; the source computes
`constructorList.indexOf(input.constructor) + 16` over the list
`[Uint8Array, Uint16Array, Uint32Array, BigUint64Array, Int8Array,
Int16Array, Int32Array, BigInt64Array, Float32Array, Float64Array]`. -/
def taTag : TAKind → ℕ
  | .u8 => 16 | .u16 => 17 | .u32 => 18 | .u64 => 19
  | .i8 => 20 | .i16 => 21 | .i32 => 22 | .i64 => 23
  | .f32 => 24 | .f64 => 25

/-- Inverse lookup `constructorList[type - 16]` used by `unpackValue`. -/
def taOfTag (t : ℕ) : TAKind :=
  if t = 16 then .u8 else if t = 17 then .u16
  else if t = 18 then .u32 else if t = 19 then .u64
  else if t = 20 then .i8 else if t = 21 then .i16
  else if t = 22 then .i32 else if t = 23 then .i64
  else if t = 24 then .f32 else .f64

/-- The closed set of value shapes moved by the codec of `ws.mjs`.
`int` covers `BigInt`s and integral `Number`s in int32 range (identical
handling in `packValue`); `float64` is a `Number` failing `~~x === x`,
carried by its bit pattern; `date` holds the UTF-8 bytes of
`toISOString()` (or the literal `Invalid Date`); `json` is the
`JSON.stringify` fallback text. -/
inductive Value where
  | undef
  | null
  | nan
  | bool (b : Bool)
  | posInf
  | negInf
  | negZero
  | int (n : ℤ)
  | float64 (bits : ℕ)
  | typedArr (k : TAKind) (elems : List ℕ)
  | date (iso : List ℕ)
  | str (bytes : List ℕ)
  | regexp (source : List ℕ) (g i m s u y : Bool)
  | json (text : List ℕ)
deriving DecidableEq, Repr

/-- Flag bitmask of a regular expression
(bit0 global, bit1 ignoreCase, bit2 multiline, bit3 dotAll, bit4 unicode,
bit5 sticky), as assembled by `packValue`. -/
def flagsByte (g i m s u y : Bool) : ℕ :=
  (if g then 1 else 0) + (if i then 2 else 0) + (if m then 4 else 0) +
  (if s then 8 else 0) + (if u then 16 else 0) + (if y then 32 else 0)

/-- Model of the external helper `uint64ToBytes` (alhadis.utils): 8-byte
big-endian encoding. -/
def uint64ToBytes (n : ℕ) : List ℕ := beBytes 8 n

/-- Width/sign selection and encoding of an integer value, transcribed from
the `Number`/`BigInt` branch of `packValue` (ws.mjs lines 463-496): note the
asymmetric negative bounds (`-127`, `-(2^15)+1`, `-(2^31)+1`, `-(2^63)+1`)
and the arbitrary-precision fallback (tags 27/28). -/
def packInt (n : ℤ) : List ℕ :=
  if 0 ≤ n then
    if n ≤ 255 then 8 :: beBytes 1 n.toNat
    else if n ≤ 2 ^ 16 - 1 then 9 :: beBytes 2 n.toNat
    else if n ≤ 2 ^ 32 - 1 then 10 :: beBytes 4 n.toNat
    else if n ≤ 2 ^ 64 - 1 then 11 :: beBytes 8 n.toNat
    else 27 :: (uint64ToBytes (magBytes n.toNat).length ++ magBytes n.toNat)
  else
    if -127 ≤ n then 12 :: beBytes 1 (n % 2 ^ 8).toNat
    else if -(2 ^ 15) + 1 ≤ n then 13 :: beBytes 2 (n % 2 ^ 16).toNat
    else if -(2 ^ 31) + 1 ≤ n then 14 :: beBytes 4 (n % 2 ^ 32).toNat
    else if -(2 ^ 63) + 1 ≤ n then 15 :: beBytes 8 (n % 2 ^ 64).toNat
    else 28 :: (uint64ToBytes (magBytes (-n).toNat).length ++ magBytes (-n).toNat)

/-- `packValue` (ws.mjs lines 450-540): one type-tagged entry per value. -/
def packValue : Value → List ℕ
  | .undef => [0]
  | .null => [1]
  | .nan => [2]
  | .bool true => [3]
  | .bool false => [4]
  | .posInf => [5]
  | .negInf => [6]
  | .negZero => [7]
  | .int n => packInt n
  | .float64 bits => 26 :: uint64ToBytes bits
  | .typedArr k es =>
      let bytes := es.flatMap (leBytes (elemSize k))
      taTag k :: (uint64ToBytes bytes.length ++ bytes)
  | .date s => 29 :: (uint64ToBytes s.length ++ s)
  | .str s => 30 :: (uint64ToBytes s.length ++ s)
  | .regexp src g i m s u y =>
      31 :: (uint64ToBytes src.length ++ (flagsByte g i m s u y :: src))
  | .json s => 32 :: (uint64ToBytes s.length ++ s)

/-- `pack(...args)` (ws.mjs lines 415-421): concatenated entries prefixed
with an 8-byte big-endian entry count. -/
def pack (args : List Value) : List ℕ :=
  uint64ToBytes args.length ++ args.flatMap packValue

/-- Dispatch of `unpackValue` on a non-empty input `t :: rest` (ws.mjs
lines 552-617): `t` is the type tag, `rest` everything after it; the
original `input` is `t :: rest`.  `size` is the 8-byte field after the tag
when at least 8 bytes follow the tag, else 0; slices clamp exactly as
`TypedArray.prototype.slice`/`subarray` do.  Note the typed-array branch
returns a consumed count of 9 — the tag and length field only, not the
element bytes — exactly as the source does. -/
def unpackValueCore (t : ℕ) (rest : List ℕ) : Except String (ℕ × Value) :=
    let size := if 8 ≤ rest.length then beNat (rest.take 8) else 0
    if t = 0 then .ok (1, .undef)
    else if t = 1 then .ok (1, .null)
    else if t = 2 then .ok (1, .nan)
    else if t = 3 then .ok (1, .bool true)
    else if t = 4 then .ok (1, .bool false)
    else if t = 5 then .ok (1, .posInf)
    else if t = 6 then .ok (1, .negInf)
    else if t = 7 then .ok (1, .negZero)
    else if t = 8 then
      if rest.length < 1 then .error "RangeError" else
      .ok (2, .int (beNat (rest.take 1)))
    else if t = 9 then
      if rest.length < 2 then .error "RangeError" else
      .ok (3, .int (beNat (rest.take 2)))
    else if t = 10 then
      if rest.length < 4 then .error "RangeError" else
      .ok (5, .int (beNat (rest.take 4)))
    else if t = 11 then
      if rest.length < 8 then .error "RangeError" else
      .ok (9, .int (beNat (rest.take 8)))
    else if t = 12 then
      if rest.length < 1 then .error "RangeError" else
      .ok (2, .int (sdec 1 (beNat (rest.take 1))))
    else if t = 13 then
      if rest.length < 2 then .error "RangeError" else
      .ok (3, .int (sdec 2 (beNat (rest.take 2))))
    else if t = 14 then
      if rest.length < 4 then .error "RangeError" else
      .ok (5, .int (sdec 4 (beNat (rest.take 4))))
    else if t = 15 then
      if rest.length < 8 then .error "RangeError" else
      .ok (9, .int (sdec 8 (beNat (rest.take 8))))
    else if t = 26 then
      if rest.length < 8 then .error "RangeError" else
      .ok (9, .float64 (beNat (rest.take 8)))
    else if 16 ≤ t ∧ t ≤ 25 then
      let k := taOfTag t
      let raw := ((t :: rest).drop 9).take (size * elemSize k)
      if raw.length % elemSize k ≠ 0 then .error "RangeError"
      else .ok (9, .typedArr k (toElems (elemSize k) (size * elemSize k) raw))
    else if t = 27 ∨ t = 28 then
      let mag := ((t :: rest).drop 9).take size
      if mag.isEmpty then .error "SyntaxError: Cannot convert 0x to a BigInt"
      else .ok (9 + size,
        .int (if t = 28 then -(beNat mag : ℤ) else (beNat mag : ℤ)))
    else if t = 31 then
      if (t :: rest).length < 10 then .error "RangeError"
      else
        let fl := ((t :: rest).drop 9).headD 0
        let src := ((t :: rest).drop 10).take size
        .ok (10 + size, .regexp src (fl &&& 1 != 0) (fl &&& 2 != 0)
          (fl &&& 4 != 0) (fl &&& 8 != 0) (fl &&& 16 != 0) (fl &&& 32 != 0))
    else
      let s := ((t :: rest).drop 9).take size
      if t = 29 then .ok (9 + size, .date s)
      else if t = 30 then .ok (9 + size, .str s)
      else if t = 32 then .ok (9 + size, .json s)
      else .error "TypeError: Unrecognised type identifier"

/-- `unpackValue` (ws.mjs lines 549-618): reject an empty buffer, else
dispatch on the leading type tag. -/
def unpackValue (input : List ℕ) : Except String (ℕ × Value) :=
  match input with
  | [] => .error "TypeError: Cannot unpack empty buffer"
  | t :: rest => unpackValueCore t rest

/-- The entry loop of `unpack`: `k` entries remain to be filled, reading at
`offset`; the loop stops early (leaving the remaining `Array(size)` slots as
holes, modelled by `none`) once `offset` reaches the end of the buffer. -/
def unpackGo (bytes : List ℕ) (offset : ℕ) : ℕ → Except String (List (Option Value))
  | 0 => .ok []
  | k + 1 =>
    if offset < bytes.length then
      match unpackValue (bytes.drop offset) with
      | .error e => .error e
      | .ok (c, v) =>
        match unpackGo bytes (offset + c) k with
        | .error e => .error e
        | .ok vs => .ok (some v :: vs)
    else .ok (List.replicate (k + 1) none)

/-- `unpack` (ws.mjs lines 429-441).  `Uint8Array.from` coerces each input
byte modulo 256; `getBigUint64(0)` throws a `RangeError` on fewer than
8 bytes.  The result models the returned (possibly sparse) array, one
`Option Value` per declared top-level entry. -/
def unpack (bytes0 : List ℕ) : Except String (List (Option Value)) :=
  let bytes := bytes0.map (· % 256)
  if bytes.length < 8 then .error "RangeError"
  else unpackGo bytes 8 (beNat (bytes.take 8))

/-- The set of directly representable values named by the round-trip claim:
integers in `[-2^63+1, 2^64-1]`, doubles, booleans, null, undefined, NaN,
the infinities, signed zero, UTF-8 strings, dates, regular expressions and
homogeneous numeric typed arrays (the `json` fallback is excluded).  The
side conditions record that the payload bytes really are bytes and that
length fields fit the 8-byte count. -/
def Representable : Value → Prop
  | .int n => -(2 ^ 63) + 1 ≤ n ∧ n ≤ 2 ^ 64 - 1
  | .float64 bits => bits < 2 ^ 64
  | .typedArr k es =>
      es.length * elemSize k < 2 ^ 64 ∧ ∀ e ∈ es, e < 256 ^ elemSize k
  | .date s => s.length < 2 ^ 64 ∧ ∀ b ∈ s, b < 256
  | .str s => s.length < 2 ^ 64 ∧ ∀ b ∈ s, b < 256
  | .regexp src _ _ _ _ _ _ => src.length < 2 ^ 64 ∧ ∀ b ∈ src, b < 256
  | .json _ => False
  | _ => True

/-- A decoded WebSocket frame as exchanged with the external FrameCodec
(`wsDecodeFrame`/`wsEncodeFrame`): opcode, FIN bit and payload bytes. -/
structure WSFrame where
  opcode : ℕ
  isFinal : Bool
  payload : List ℕ
deriving DecidableEq, Repr

/-- The fragmentation loop of `encode` (ws.mjs lines 383-400): repeatedly
splice off at most `m` payload bytes; `isFinal` is set when nothing
remains; the opcode drops to 0 (continuation) after the first frame.
With `m = 0` and nonempty data the source never terminates (`splice(0, 0)`
makes no progress); that unreachable-for-valid-`maxSize` case is mapped to
`[]` here and every theorem assumes `1 ≤ m`. -/
def encodeFrom (opc m : ℕ) (data : List ℕ) : List WSFrame :=
  if data.length ≤ m then [⟨opc, true, data⟩]
  else if m = 0 then []
  else ⟨opc, false, data.take m⟩ :: encodeFrom 0 m (data.drop m)
termination_by data.length
decreasing_by simp; omega

/-- `encode(data, maxSize)`: a string gets opcode 0x01 and its UTF-8 bytes
(`utf8Decode`, identity in this representation); any other byte sequence
gets opcode 0x02. -/
def encode (isText : Bool) (data : List ℕ) (m : ℕ) : List WSFrame :=
  encodeFrom (if isText then 1 else 2) m data

/-- Declared type of the message being reassembled (`inputType`). -/
inductive InputType
  | text
  | binary
deriving DecidableEq, Repr

/-- Observations a Channel emits (`ws:ping`, `ws:pong`,
`ws:incomplete-message`, `ws:message`, `ws:close`); `close none` models
`emit("ws:close")` with no arguments. -/
inductive Event where
  | ping (frame : WSFrame)
  | pong (frame : WSFrame)
  | incompleteMessage (buf : List ℕ) (ty : InputType)
  | message (ty : InputType) (payload : List ℕ)
  | close (args : Option (ℕ × List ℕ))
deriving DecidableEq, Repr

/-- Externally visible actions of a Channel, in program order: an event
emission, a socket write of one encoded frame, or `socket.end()`. -/
inductive Effect where
  | emit (e : Event)
  | write (frame : WSFrame)
  | socketEnd
deriving DecidableEq, Repr

/-- `Number.MAX_SAFE_INTEGER`. -/
def maxSafeInteger : ℕ := 2 ^ 53 - 1

/-- Mutable state of one `Channel` (ws.mjs lines 41-50), with the
constructor's field initializers as defaults.  The unused `outputPending`
field and the `#sendPromise` write-serialization handle carry no
observable state in the single-threaded model and are omitted. -/
structure ChannelState where
  closed : Bool := false
  maxSize : ℕ := maxSafeInteger
  frameBuffer : List ℕ := []
  inputBuffer : List ℕ := []
  inputPending : Bool := false
  inputType : InputType := .binary
  outputBuffer : List WSFrame := []
deriving DecidableEq, Repr

/-- State of a freshly constructed Channel. -/
def ChannelState.initial : ChannelState := {}

namespace Channel

/-- Frame-name dispatch keys used by the `switch` in `readFrame`; reserved
opcodes fall into `other` (no `case` matches). -/
inductive Opname
  | cont
  | text
  | binary
  | close
  | ping
  | pong
  | other
deriving DecidableEq, Repr

/-- The `opname` attached to a decoded frame by the external FrameCodec,
determined by its opcode. -/
def opname (o : ℕ) : Opname :=
  if o = 0 then .cont
  else if o = 1 then .text
  else if o = 2 then .binary
  else if o = 8 then .close
  else if o = 9 then .ping
  else if o = 10 then .pong
  else .other

/-- The zero-payload ping control frame built by `Channel.ping`. -/
def pingFrame : WSFrame := ⟨9, true, []⟩

/-- The zero-payload pong control frame built by `Channel.pong`. -/
def pongFrame : WSFrame := ⟨10, true, []⟩

/-- The shared data-frame epilogue of `readFrame` (ws.mjs lines 155-166):
for data opcodes, a final frame flushes the accumulated buffer as one
`ws:message` observation and clears the buffering state, a non-final frame
marks the message pending.  `pre` is the effect list accumulated by the
dispatch `switch` before this point. -/
def dataSection (st : ChannelState) (f : WSFrame) (pre : List Effect) :
    ChannelState × List Effect :=
  if f.opcode < 8 then
    if f.isFinal then
      ({st with inputBuffer := [], inputPending := false},
        pre ++ [.emit (.message st.inputType st.inputBuffer)])
    else ({st with inputPending := true}, pre)
  else (st, pre)

/-- Start of a new text/binary message: emit `ws:incomplete-message` when
the current `inputBuffer` is non-empty, then overwrite the buffer with this
frame's payload and declared type (ws.mjs lines 134-140). -/
def dataStart (st : ChannelState) (f : WSFrame) (ty : InputType) :
    ChannelState × List Effect :=
  let pre :=
    if st.inputBuffer.length ≠ 0 then
      [Effect.emit (.incompleteMessage st.inputBuffer st.inputType)]
    else []
  dataSection {st with inputBuffer := f.payload, inputType := ty} f pre

/-- The big-endian status code read from a close payload:
`(255 & payload[0]) << 8 | 255 & payload[1]`, where a missing `payload[1]`
reads as 0 (`255 & undefined`). -/
def closeCode (p : List ℕ) : ℕ :=
  ((p.getD 0 0 &&& 255) <<< 8) ||| (p.getD 1 0 &&& 255)

/-- `Channel.readFrame` (ws.mjs lines 129-167): process one decoded frame,
returning the updated state and the emitted effects in order. -/
def readFrame (st : ChannelState) (f : WSFrame) : ChannelState × List Effect :=
  if st.closed then (st, [])
  else
    match opname f.opcode with
    | .ping => (st, [.emit (.ping f), .write pongFrame])
    | .pong => (st, [.emit (.pong f)])
    | .text => dataStart st f .text
    | .binary => dataStart st f .binary
    | .cont =>
      if !st.inputPending then (st, [])
      else dataSection {st with inputBuffer := st.inputBuffer ++ f.payload} f []
    | .close =>
      let evs :=
        if f.payload.length ≠ 0 then
          [Effect.emit (.close (some (closeCode f.payload, f.payload.drop 2)))]
        else [Effect.emit (.close none)]
      dataSection {st with closed := true} f evs
    | .other => dataSection st f []

/-- `Channel.readBytes` (ws.mjs lines 113-120): append the raw bytes to the
frame buffer, decode as many complete frames as possible, keep the trailer
and dispatch the frames in order.  `decodeFn` stands for the module-level
`decode` helper, whose internals rest on the external `wsDecodeFrame`. -/
def readBytes (decodeFn : List ℕ → List WSFrame × List ℕ)
    (st : ChannelState) (data : List ℕ) : ChannelState × List Effect :=
  if st.closed then (st, [])
  else
    let r := decodeFn (st.frameBuffer ++ data)
    r.1.foldl (fun acc f =>
        let q := readFrame acc.1 f
        (q.1, acc.2 ++ q.2))
      ({st with frameBuffer := r.2}, [])

/-- `Channel.sendNext` (ws.mjs lines 190-198): shift one queued frame,
write it, and recurse while the queue is non-empty.  The await-based
one-write-in-flight discipline collapses to this synchronous drain in the
single-threaded model. -/
def sendNext (st : ChannelState) : ChannelState × List Effect :=
  if st.closed then (st, [])
  else
    match h : st.outputBuffer with
    | [] => (st, [])
    | f :: rest =>
      if rest.isEmpty then ({st with outputBuffer := []}, [.write f])
      else
        let r := sendNext {st with outputBuffer := rest}
        (r.1, .write f :: r.2)
termination_by st.outputBuffer.length
decreasing_by simp [h]

/-- Payload of `Channel.send`: either a logical message to fragment, or a
pre-encoded frame list (`raw = true`, the broadcast path). -/
inductive SendData
  | msg (isText : Bool) (bytes : List ℕ)
  | raw (frames : List WSFrame)
deriving DecidableEq, Repr

/-- `Channel.send` (ws.mjs lines 177-181): enqueue the frames (fragmenting
a logical message at `maxSize`) and run the send pump. -/
def send (st : ChannelState) (d : SendData) : ChannelState × List Effect :=
  if st.closed then (st, [])
  else
    let frames :=
      match d with
      | .msg isText bytes => encode isText bytes st.maxSize
      | .raw fs => fs
    sendNext {st with outputBuffer := st.outputBuffer ++ frames}

/-- `Channel.ping` (ws.mjs lines 205-209): write a ping control frame
immediately, bypassing the data queue. -/
def ping (st : ChannelState) : ChannelState × List Effect :=
  if st.closed then (st, []) else (st, [.write pingFrame])

/-- `Channel.pong` (ws.mjs lines 216-220). -/
def pong (st : ChannelState) : ChannelState × List Effect :=
  if st.closed then (st, []) else (st, [.write pongFrame])

/-- `Channel.close` (ws.mjs lines 97-104): once only, mark closed, write a
close frame (big-endian code plus UTF-8 reason when the code is truthy),
emit `ws:close` with the code and reason, and end the socket. -/
def close (st : ChannelState) (code : ℕ) (reason : List ℕ) :
    ChannelState × List Effect :=
  if st.closed then (st, [])
  else
    let payload :=
      if code ≠ 0 then ((code >>> 8) &&& 255) :: (code &&& 255) :: reason
      else []
    ({st with closed := true},
      [.write ⟨8, true, payload⟩, .emit (.close (some (code, reason))),
        .socketEnd])

/-- Model of the external `clamp` helper (alhadis.utils):
`Math.min(Math.max(x, lo), hi)`. -/
def clamp (x lo hi : ℤ) : ℤ := min (max x lo) hi

/-- JavaScript `~~x` (ToInt32) on an integral value: wrap into
`[-2^31, 2^31 - 1]`. -/
def toInt32 (x : ℤ) : ℤ := (x + 2 ^ 31) % 2 ^ 32 - 2 ^ 31

/-- The `maxSize` setter (ws.mjs lines 85-87):
`clamp(~~Number(to), 1, Number.MAX_SAFE_INTEGER)`. -/
def setMaxSize (v : ℤ) : ℤ := clamp (toInt32 v) 1 (maxSafeInteger : ℤ)

end Channel

namespace Server

/-- The Server's channel table (`channels : Map`), modelled by its socket
keys in insertion order (keys unique; `Map.set` on a fresh key appends). -/
structure ServerState where
  channels : List ℕ := []
deriving DecidableEq, Repr

/-- `Server.upgrade` (ws.mjs lines 324-336), restricted to the table
bookkeeping: register the socket's new Channel and assign it an id equal to
`this.channels.size` right after insertion.  Returns the new state and the
assigned id. -/
def upgrade (st : ServerState) (socket : ℕ) : ServerState × ℕ :=
  let table :=
    if socket ∈ st.channels then st.channels else st.channels ++ [socket]
  (⟨table⟩, table.length)

/-- The `ws:close` handler installed by `upgrade`:
`this.channels.delete(socket)`. -/
def removeChannel (st : ServerState) (socket : ℕ) : ServerState :=
  ⟨st.channels.erase socket⟩

/-- `Server.isConnected` (ws.mjs lines 297-301). -/
def isConnected (st : ServerState) (socket : ℕ) : Bool :=
  st.channels.contains socket

end Server

/-! ### Byte-level lemmas -/

theorem beBytes_length (w n : ℕ) : (beBytes w n).length = w := by
  induction w generalizing n with
  | zero => rfl
  | succ w ih => simp [beBytes, ih]

theorem beBytes_lt (w n : ℕ) : ∀ b ∈ beBytes w n, b < 256 := by
  induction w generalizing n with
  | zero => simp [beBytes]
  | succ w ih =>
    simp only [beBytes, List.mem_cons]
    rintro b (rfl | hb)
    · exact Nat.mod_lt _ (by omega)
    · exact ih n b hb

theorem beNat_beBytes (w n : ℕ) : beNat (beBytes w n) = n % 256 ^ w := by
  induction w generalizing n with
  | zero => simp [beBytes, beNat, Nat.mod_one]
  | succ w ih =>
    simp only [beBytes, beNat, beBytes_length, ih]
    rw [pow_succ, Nat.mod_mul]
    ring

theorem beNat_beBytes_of_lt (w n : ℕ) (h : n < 256 ^ w) :
    beNat (beBytes w n) = n := by
  rw [beNat_beBytes, Nat.mod_eq_of_lt h]

theorem leBytes_length (w n : ℕ) : (leBytes w n).length = w := by
  induction w generalizing n with
  | zero => rfl
  | succ w ih => simp [leBytes, ih]

theorem leBytes_lt (w n : ℕ) : ∀ b ∈ leBytes w n, b < 256 := by
  induction w generalizing n with
  | zero => simp [leBytes]
  | succ w ih =>
    simp only [leBytes, List.mem_cons]
    rintro b (rfl | hb)
    · exact Nat.mod_lt _ (by omega)
    · exact ih (n / 256) b hb

theorem leNat_leBytes (w n : ℕ) : leNat (leBytes w n) = n % 256 ^ w := by
  induction w generalizing n with
  | zero => simp [leBytes, leNat, Nat.mod_one]
  | succ w ih =>
    simp only [leBytes, leNat, ih]
    rw [pow_succ, mul_comm (256 ^ w) 256, Nat.mod_mul]

theorem beNat_append_singleton (xs : List ℕ) (b : ℕ) :
    beNat (xs ++ [b]) = 256 * beNat xs + b := by
  induction xs with
  | nil => simp [beNat]
  | cons x xs ih =>
    simp only [List.cons_append, beNat, List.append_eq]
    rw [ih, List.length_append, List.length_singleton]
    ring

theorem beNat_magBytes (n : ℕ) : beNat (magBytes n) = n := by
  induction n using Nat.strong_induction_on with
  | _ n ih =>
    unfold magBytes
    split
    · simp [beNat]
    · rw [beNat_append_singleton,
        ih (n / 256) (Nat.div_lt_self (by omega) (by omega))]
      omega

theorem magBytes_lt (n : ℕ) : ∀ b ∈ magBytes n, b < 256 := by
  induction n using Nat.strong_induction_on with
  | _ n ih =>
    unfold magBytes
    split
    · simp; omega
    · simp only [List.mem_append, List.mem_singleton]
      rintro b (hb | rfl)
      · exact ih (n / 256) (Nat.div_lt_self (by omega) (by omega)) b hb
      · exact Nat.mod_lt _ (by omega)

theorem magBytes_ne_nil (n : ℕ) : magBytes n ≠ [] := by
  unfold magBytes
  split <;> simp

theorem flatMap_leBytes_length (e : ℕ) (es : List ℕ) :
    (es.flatMap (leBytes e)).length = es.length * e := by
  induction es with
  | nil => simp
  | cons x es ih => simp [ih, leBytes_length]; ring

theorem flatMap_leBytes_lt (e : ℕ) (es : List ℕ) :
    ∀ b ∈ es.flatMap (leBytes e), b < 256 := by
  induction es with
  | nil => simp
  | cons x es ih =>
    simp only [List.flatMap_cons, List.mem_append]
    rintro b (hb | hb)
    · exact leBytes_lt e x b hb
    · exact ih b hb

theorem toElems_flatMap (e : ℕ) (he : 1 ≤ e) (es : List ℕ) (fuel : ℕ)
    (hfuel : es.length ≤ fuel) (h : ∀ x ∈ es, x < 256 ^ e) :
    toElems e fuel (es.flatMap (leBytes e)) = es := by
  induction es generalizing fuel with
  | nil =>
    cases fuel <;> rfl
  | cons x es ih =>
    obtain ⟨f, rfl⟩ : ∃ f, fuel = f + 1 := ⟨fuel - 1, by simp at hfuel; omega⟩
    obtain ⟨w, rfl⟩ : ∃ w, e = w + 1 := ⟨e - 1, by omega⟩
    simp only [List.flatMap_cons]
    rw [leBytes, List.cons_append, toElems]
    have hw : (w + 1) - 1 = w := by omega
    have htake : (leBytes w (x / 256) ++ es.flatMap (leBytes (w + 1))).take w =
        leBytes w (x / 256) := List.take_left' (leBytes_length w (x / 256))
    have hdrop : (leBytes w (x / 256) ++ es.flatMap (leBytes (w + 1))).drop w =
        es.flatMap (leBytes (w + 1)) := List.drop_left' (leBytes_length w (x / 256))
    rw [hw, htake, hdrop]
    have hx : leNat (x % 256 :: leBytes w (x / 256)) = x := by
      have := leNat_leBytes (w + 1) x
      rw [leBytes] at this
      rw [this, Nat.mod_eq_of_lt (h x (List.mem_cons_self x es))]
    rw [hx, ih f (by simp at hfuel; omega)
      (fun y hy => h y (List.mem_cons_of_mem x hy))]

theorem size_of_rest (L : ℕ) (hL : L < 2 ^ 64) (tail : List ℕ) :
    beNat ((uint64ToBytes L ++ tail).take 8) = L := by
  unfold uint64ToBytes
  rw [List.take_left' (beBytes_length 8 L), beNat_beBytes_of_lt]
  exact lt_of_lt_of_le hL (by norm_num)

theorem drop8_of_rest (L : ℕ) (tail : List ℕ) :
    (uint64ToBytes L ++ tail).drop 8 = tail :=
  List.drop_left' (beBytes_length 8 L)

/-! ### Entry-level round-trip lemmas for the value codec -/

theorem unpackValue_cons (t : ℕ) (rest : List ℕ) :
    unpackValue (t :: rest) = unpackValueCore t rest := rfl

theorem taOfTag_taTag (k : TAKind) : taOfTag (taTag k) = k := by
  cases k <;> rfl

theorem unpackValue_packInt (n : ℤ) (h1 : -(2 ^ 63) + 1 ≤ n)
    (h2 : n ≤ 2 ^ 64 - 1) :
    ∃ c, unpackValue (packInt n) = .ok (c, .int n) := by
  unfold packInt
  split_ifs with h0 ha hb hc hd he hf
  · refine ⟨2, ?_⟩
    rw [unpackValue_cons]
    simp only [unpackValueCore, beBytes_length]
    norm_num
    rw [List.take_of_length_le (le_of_eq (beBytes_length 1 _)),
      beNat_beBytes_of_lt 1 _ (by omega)]
    simp
    omega
  · refine ⟨3, ?_⟩
    rw [unpackValue_cons]
    simp only [unpackValueCore, beBytes_length]
    norm_num
    rw [List.take_of_length_le (le_of_eq (beBytes_length 2 _)),
      beNat_beBytes_of_lt 2 _ (by norm_num; omega)]
    simp
    omega
  · refine ⟨5, ?_⟩
    rw [unpackValue_cons]
    simp only [unpackValueCore, beBytes_length]
    norm_num
    rw [List.take_of_length_le (le_of_eq (beBytes_length 4 _)),
      beNat_beBytes_of_lt 4 _ (by norm_num; omega)]
    simp
    omega
  · refine ⟨9, ?_⟩
    rw [unpackValue_cons]
    simp only [unpackValueCore, beBytes_length]
    norm_num
    rw [List.take_of_length_le (le_of_eq (beBytes_length 8 _)),
      beNat_beBytes_of_lt 8 _ (by norm_num; omega)]
    simp
    omega
  · refine ⟨2, ?_⟩
    rw [unpackValue_cons]
    simp only [unpackValueCore, beBytes_length]
    norm_num
    rw [List.take_of_length_le (le_of_eq (beBytes_length 1 _)),
      beNat_beBytes_of_lt 1 _ (by omega)]
    simp [sdec]
    omega
  · refine ⟨3, ?_⟩
    rw [unpackValue_cons]
    simp only [unpackValueCore, beBytes_length]
    norm_num
    rw [List.take_of_length_le (le_of_eq (beBytes_length 2 _)),
      beNat_beBytes_of_lt 2 _ (by norm_num; omega)]
    simp [sdec]
    omega
  · refine ⟨5, ?_⟩
    rw [unpackValue_cons]
    simp only [unpackValueCore, beBytes_length]
    norm_num
    rw [List.take_of_length_le (le_of_eq (beBytes_length 4 _)),
      beNat_beBytes_of_lt 4 _ (by norm_num; omega)]
    simp [sdec]
    omega
  · refine ⟨9, ?_⟩
    rw [unpackValue_cons]
    simp only [unpackValueCore, beBytes_length]
    norm_num
    rw [List.take_of_length_le (le_of_eq (beBytes_length 8 _)),
      beNat_beBytes_of_lt 8 _ (by norm_num; omega)]
    simp [sdec]
    omega

theorem unpackValue_packTypedArr (k : TAKind) (es : List ℕ)
    (hLen : es.length * elemSize k < 2 ^ 64)
    (hElems : ∀ x ∈ es, x < 256 ^ elemSize k) :
    unpackValue (packValue (.typedArr k es)) = .ok (9, .typedArr k es) := by
  cases k
  case u8 =>
    simp only [packValue, taTag, elemSize] at hLen hElems ⊢
    obtain ⟨bs, hbs⟩ : ∃ bs, es.flatMap (leBytes 1) = bs := ⟨_, rfl⟩
    have hbl : bs.length = es.length * 1 := by
      rw [← hbs]; exact flatMap_leBytes_length 1 es
    have h64 : bs.length < 2 ^ 64 := by rw [hbl]; exact hLen
    have hte : toElems 1 (bs.length * 1) bs = es := by
      rw [← hbs]
      exact toElems_flatMap 1 (by norm_num) es _
        (by rw [hbs, hbl]; omega) hElems
    rw [hbs, unpackValue_cons]
    simp only [unpackValueCore]
    rw [if_pos (show (8:ℕ) ≤ (uint64ToBytes bs.length ++ bs).length from by
      simp [uint64ToBytes, beBytes_length])]
    rw [size_of_rest bs.length h64 bs]
    norm_num
    simp only [show taOfTag 16 = TAKind.u8 from rfl, elemSize]
    rw [drop8_of_rest bs.length bs]
    rw [List.take_of_length_le (by omega : bs.length ≤ bs.length * 1)]
    rw [hte]
    simp only [uint64ToBytes, beBytes_length]
    have hc : (bs.length * 1 ⊓ (8 + bs.length - 8)) % 1 = 0 := by omega
    rw [if_pos hc]
  case u16 =>
    simp only [packValue, taTag, elemSize] at hLen hElems ⊢
    obtain ⟨bs, hbs⟩ : ∃ bs, es.flatMap (leBytes 2) = bs := ⟨_, rfl⟩
    have hbl : bs.length = es.length * 2 := by
      rw [← hbs]; exact flatMap_leBytes_length 2 es
    have h64 : bs.length < 2 ^ 64 := by rw [hbl]; exact hLen
    have hte : toElems 2 (bs.length * 2) bs = es := by
      rw [← hbs]
      exact toElems_flatMap 2 (by norm_num) es _
        (by rw [hbs, hbl]; omega) hElems
    rw [hbs, unpackValue_cons]
    simp only [unpackValueCore]
    rw [if_pos (show (8:ℕ) ≤ (uint64ToBytes bs.length ++ bs).length from by
      simp [uint64ToBytes, beBytes_length])]
    rw [size_of_rest bs.length h64 bs]
    norm_num
    simp only [show taOfTag 17 = TAKind.u16 from rfl, elemSize]
    rw [drop8_of_rest bs.length bs]
    rw [List.take_of_length_le (by omega : bs.length ≤ bs.length * 2)]
    rw [hte]
    simp only [uint64ToBytes, beBytes_length]
    have hc : (bs.length * 2 ⊓ (8 + bs.length - 8)) % 2 = 0 := by omega
    rw [if_pos hc]
  case u32 =>
    simp only [packValue, taTag, elemSize] at hLen hElems ⊢
    obtain ⟨bs, hbs⟩ : ∃ bs, es.flatMap (leBytes 4) = bs := ⟨_, rfl⟩
    have hbl : bs.length = es.length * 4 := by
      rw [← hbs]; exact flatMap_leBytes_length 4 es
    have h64 : bs.length < 2 ^ 64 := by rw [hbl]; exact hLen
    have hte : toElems 4 (bs.length * 4) bs = es := by
      rw [← hbs]
      exact toElems_flatMap 4 (by norm_num) es _
        (by rw [hbs, hbl]; omega) hElems
    rw [hbs, unpackValue_cons]
    simp only [unpackValueCore]
    rw [if_pos (show (8:ℕ) ≤ (uint64ToBytes bs.length ++ bs).length from by
      simp [uint64ToBytes, beBytes_length])]
    rw [size_of_rest bs.length h64 bs]
    norm_num
    simp only [show taOfTag 18 = TAKind.u32 from rfl, elemSize]
    rw [drop8_of_rest bs.length bs]
    rw [List.take_of_length_le (by omega : bs.length ≤ bs.length * 4)]
    rw [hte]
    simp only [uint64ToBytes, beBytes_length]
    have hc : (bs.length * 4 ⊓ (8 + bs.length - 8)) % 4 = 0 := by omega
    rw [if_pos hc]
  case u64 =>
    simp only [packValue, taTag, elemSize] at hLen hElems ⊢
    obtain ⟨bs, hbs⟩ : ∃ bs, es.flatMap (leBytes 8) = bs := ⟨_, rfl⟩
    have hbl : bs.length = es.length * 8 := by
      rw [← hbs]; exact flatMap_leBytes_length 8 es
    have h64 : bs.length < 2 ^ 64 := by rw [hbl]; exact hLen
    have hte : toElems 8 (bs.length * 8) bs = es := by
      rw [← hbs]
      exact toElems_flatMap 8 (by norm_num) es _
        (by rw [hbs, hbl]; omega) hElems
    rw [hbs, unpackValue_cons]
    simp only [unpackValueCore]
    rw [if_pos (show (8:ℕ) ≤ (uint64ToBytes bs.length ++ bs).length from by
      simp [uint64ToBytes, beBytes_length])]
    rw [size_of_rest bs.length h64 bs]
    norm_num
    simp only [show taOfTag 19 = TAKind.u64 from rfl, elemSize]
    rw [drop8_of_rest bs.length bs]
    rw [List.take_of_length_le (by omega : bs.length ≤ bs.length * 8)]
    rw [hte]
    simp only [uint64ToBytes, beBytes_length]
    have hc : (bs.length * 8 ⊓ (8 + bs.length - 8)) % 8 = 0 := by omega
    rw [if_pos hc]
  case i8 =>
    simp only [packValue, taTag, elemSize] at hLen hElems ⊢
    obtain ⟨bs, hbs⟩ : ∃ bs, es.flatMap (leBytes 1) = bs := ⟨_, rfl⟩
    have hbl : bs.length = es.length * 1 := by
      rw [← hbs]; exact flatMap_leBytes_length 1 es
    have h64 : bs.length < 2 ^ 64 := by rw [hbl]; exact hLen
    have hte : toElems 1 (bs.length * 1) bs = es := by
      rw [← hbs]
      exact toElems_flatMap 1 (by norm_num) es _
        (by rw [hbs, hbl]; omega) hElems
    rw [hbs, unpackValue_cons]
    simp only [unpackValueCore]
    rw [if_pos (show (8:ℕ) ≤ (uint64ToBytes bs.length ++ bs).length from by
      simp [uint64ToBytes, beBytes_length])]
    rw [size_of_rest bs.length h64 bs]
    norm_num
    simp only [show taOfTag 20 = TAKind.i8 from rfl, elemSize]
    rw [drop8_of_rest bs.length bs]
    rw [List.take_of_length_le (by omega : bs.length ≤ bs.length * 1)]
    rw [hte]
    simp only [uint64ToBytes, beBytes_length]
    have hc : (bs.length * 1 ⊓ (8 + bs.length - 8)) % 1 = 0 := by omega
    rw [if_pos hc]
  case i16 =>
    simp only [packValue, taTag, elemSize] at hLen hElems ⊢
    obtain ⟨bs, hbs⟩ : ∃ bs, es.flatMap (leBytes 2) = bs := ⟨_, rfl⟩
    have hbl : bs.length = es.length * 2 := by
      rw [← hbs]; exact flatMap_leBytes_length 2 es
    have h64 : bs.length < 2 ^ 64 := by rw [hbl]; exact hLen
    have hte : toElems 2 (bs.length * 2) bs = es := by
      rw [← hbs]
      exact toElems_flatMap 2 (by norm_num) es _
        (by rw [hbs, hbl]; omega) hElems
    rw [hbs, unpackValue_cons]
    simp only [unpackValueCore]
    rw [if_pos (show (8:ℕ) ≤ (uint64ToBytes bs.length ++ bs).length from by
      simp [uint64ToBytes, beBytes_length])]
    rw [size_of_rest bs.length h64 bs]
    norm_num
    simp only [show taOfTag 21 = TAKind.i16 from rfl, elemSize]
    rw [drop8_of_rest bs.length bs]
    rw [List.take_of_length_le (by omega : bs.length ≤ bs.length * 2)]
    rw [hte]
    simp only [uint64ToBytes, beBytes_length]
    have hc : (bs.length * 2 ⊓ (8 + bs.length - 8)) % 2 = 0 := by omega
    rw [if_pos hc]
  case i32 =>
    simp only [packValue, taTag, elemSize] at hLen hElems ⊢
    obtain ⟨bs, hbs⟩ : ∃ bs, es.flatMap (leBytes 4) = bs := ⟨_, rfl⟩
    have hbl : bs.length = es.length * 4 := by
      rw [← hbs]; exact flatMap_leBytes_length 4 es
    have h64 : bs.length < 2 ^ 64 := by rw [hbl]; exact hLen
    have hte : toElems 4 (bs.length * 4) bs = es := by
      rw [← hbs]
      exact toElems_flatMap 4 (by norm_num) es _
        (by rw [hbs, hbl]; omega) hElems
    rw [hbs, unpackValue_cons]
    simp only [unpackValueCore]
    rw [if_pos (show (8:ℕ) ≤ (uint64ToBytes bs.length ++ bs).length from by
      simp [uint64ToBytes, beBytes_length])]
    rw [size_of_rest bs.length h64 bs]
    norm_num
    simp only [show taOfTag 22 = TAKind.i32 from rfl, elemSize]
    rw [drop8_of_rest bs.length bs]
    rw [List.take_of_length_le (by omega : bs.length ≤ bs.length * 4)]
    rw [hte]
    simp only [uint64ToBytes, beBytes_length]
    have hc : (bs.length * 4 ⊓ (8 + bs.length - 8)) % 4 = 0 := by omega
    rw [if_pos hc]
  case i64 =>
    simp only [packValue, taTag, elemSize] at hLen hElems ⊢
    obtain ⟨bs, hbs⟩ : ∃ bs, es.flatMap (leBytes 8) = bs := ⟨_, rfl⟩
    have hbl : bs.length = es.length * 8 := by
      rw [← hbs]; exact flatMap_leBytes_length 8 es
    have h64 : bs.length < 2 ^ 64 := by rw [hbl]; exact hLen
    have hte : toElems 8 (bs.length * 8) bs = es := by
      rw [← hbs]
      exact toElems_flatMap 8 (by norm_num) es _
        (by rw [hbs, hbl]; omega) hElems
    rw [hbs, unpackValue_cons]
    simp only [unpackValueCore]
    rw [if_pos (show (8:ℕ) ≤ (uint64ToBytes bs.length ++ bs).length from by
      simp [uint64ToBytes, beBytes_length])]
    rw [size_of_rest bs.length h64 bs]
    norm_num
    simp only [show taOfTag 23 = TAKind.i64 from rfl, elemSize]
    rw [drop8_of_rest bs.length bs]
    rw [List.take_of_length_le (by omega : bs.length ≤ bs.length * 8)]
    rw [hte]
    simp only [uint64ToBytes, beBytes_length]
    have hc : (bs.length * 8 ⊓ (8 + bs.length - 8)) % 8 = 0 := by omega
    rw [if_pos hc]
  case f32 =>
    simp only [packValue, taTag, elemSize] at hLen hElems ⊢
    obtain ⟨bs, hbs⟩ : ∃ bs, es.flatMap (leBytes 4) = bs := ⟨_, rfl⟩
    have hbl : bs.length = es.length * 4 := by
      rw [← hbs]; exact flatMap_leBytes_length 4 es
    have h64 : bs.length < 2 ^ 64 := by rw [hbl]; exact hLen
    have hte : toElems 4 (bs.length * 4) bs = es := by
      rw [← hbs]
      exact toElems_flatMap 4 (by norm_num) es _
        (by rw [hbs, hbl]; omega) hElems
    rw [hbs, unpackValue_cons]
    simp only [unpackValueCore]
    rw [if_pos (show (8:ℕ) ≤ (uint64ToBytes bs.length ++ bs).length from by
      simp [uint64ToBytes, beBytes_length])]
    rw [size_of_rest bs.length h64 bs]
    norm_num
    simp only [show taOfTag 24 = TAKind.f32 from rfl, elemSize]
    rw [drop8_of_rest bs.length bs]
    rw [List.take_of_length_le (by omega : bs.length ≤ bs.length * 4)]
    rw [hte]
    simp only [uint64ToBytes, beBytes_length]
    have hc : (bs.length * 4 ⊓ (8 + bs.length - 8)) % 4 = 0 := by omega
    rw [if_pos hc]
  case f64 =>
    simp only [packValue, taTag, elemSize] at hLen hElems ⊢
    obtain ⟨bs, hbs⟩ : ∃ bs, es.flatMap (leBytes 8) = bs := ⟨_, rfl⟩
    have hbl : bs.length = es.length * 8 := by
      rw [← hbs]; exact flatMap_leBytes_length 8 es
    have h64 : bs.length < 2 ^ 64 := by rw [hbl]; exact hLen
    have hte : toElems 8 (bs.length * 8) bs = es := by
      rw [← hbs]
      exact toElems_flatMap 8 (by norm_num) es _
        (by rw [hbs, hbl]; omega) hElems
    rw [hbs, unpackValue_cons]
    simp only [unpackValueCore]
    rw [if_pos (show (8:ℕ) ≤ (uint64ToBytes bs.length ++ bs).length from by
      simp [uint64ToBytes, beBytes_length])]
    rw [size_of_rest bs.length h64 bs]
    norm_num
    simp only [show taOfTag 25 = TAKind.f64 from rfl, elemSize]
    rw [drop8_of_rest bs.length bs]
    rw [List.take_of_length_le (by omega : bs.length ≤ bs.length * 8)]
    rw [hte]
    simp only [uint64ToBytes, beBytes_length]
    have hc : (bs.length * 8 ⊓ (8 + bs.length - 8)) % 8 = 0 := by omega
    rw [if_pos hc]

example (s : List ℕ) (h64 : s.length < 2 ^ 64) :
    unpackValue (packValue (.str s)) = .ok (9 + s.length, .str s) := by
  simp only [packValue]
  rw [unpackValue_cons]
  simp only [unpackValueCore]
  rw [if_pos (show (8:ℕ) ≤ (uint64ToBytes s.length ++ s).length from by
    simp [uint64ToBytes, beBytes_length])]
  rw [size_of_rest s.length h64 s]
  norm_num
  rw [drop8_of_rest s.length s, List.take_length]

example (bits : ℕ) (h64 : bits < 2 ^ 64) :
    unpackValue (packValue (.float64 bits)) = .ok (9, .float64 bits) := by
  simp only [packValue, uint64ToBytes]
  rw [unpackValue_cons]
  simp only [unpackValueCore, beBytes_length]
  norm_num
  rw [List.take_of_length_le (le_of_eq (beBytes_length 8 bits)),
    beNat_beBytes_of_lt 8 bits (by norm_num; omega)]

theorem flagsByte_g (g i m s u y : Bool) :
    (flagsByte g i m s u y % 2 == 1) = g := by
  cases g <;> cases i <;> cases m <;> cases s <;> cases u <;> cases y <;> decide

theorem flagsByte_i (g i m s u y : Bool) :
    (flagsByte g i m s u y &&& 2 != 0) = i := by
  cases g <;> cases i <;> cases m <;> cases s <;> cases u <;> cases y <;> decide

theorem flagsByte_m (g i m s u y : Bool) :
    (flagsByte g i m s u y &&& 4 != 0) = m := by
  cases g <;> cases i <;> cases m <;> cases s <;> cases u <;> cases y <;> decide

theorem flagsByte_s (g i m s u y : Bool) :
    (flagsByte g i m s u y &&& 8 != 0) = s := by
  cases g <;> cases i <;> cases m <;> cases s <;> cases u <;> cases y <;> decide

theorem flagsByte_u (g i m s u y : Bool) :
    (flagsByte g i m s u y &&& 16 != 0) = u := by
  cases g <;> cases i <;> cases m <;> cases s <;> cases u <;> cases y <;> decide

theorem flagsByte_y (g i m s u y : Bool) :
    (flagsByte g i m s u y &&& 32 != 0) = y := by
  cases g <;> cases i <;> cases m <;> cases s <;> cases u <;> cases y <;> decide

example (src : List ℕ) (g i m s u y : Bool) (h64 : src.length < 2 ^ 64) :
    unpackValue (packValue (.regexp src g i m s u y)) =
      .ok (10 + src.length, .regexp src g i m s u y) := by
  simp only [packValue]
  rw [unpackValue_cons]
  simp only [unpackValueCore]
  rw [if_pos (show (8:ℕ) ≤ (uint64ToBytes src.length ++ (flagsByte g i m s u y :: src)).length from by
    simp [uint64ToBytes, beBytes_length])]
  rw [size_of_rest src.length h64 (flagsByte g i m s u y :: src)]
  norm_num
  rw [if_neg (show ¬((uint64ToBytes src.length).length + (src.length + 1) + 1 < 10) from by
    simp only [uint64ToBytes, beBytes_length]; omega)]
  have hfl : (uint64ToBytes src.length ++ (flagsByte g i m s u y :: src))[8]? =
      some (flagsByte g i m s u y) := by
    rw [List.getElem?_append_right (by simp [uint64ToBytes, beBytes_length])]
    simp [uint64ToBytes, beBytes_length]
  rw [hfl]
  have hdrop9 : List.drop 9 (uint64ToBytes src.length ++ (flagsByte g i m s u y :: src)) = src := by
    rw [show (9:ℕ) = 8 + 1 from rfl, ← List.drop_drop, drop8_of_rest]
    simp
  rw [hdrop9, List.take_length]
  simp only [Option.getD_some]
  rw [flagsByte_g, flagsByte_i, flagsByte_m, flagsByte_s, flagsByte_u, flagsByte_y]

theorem unpackValue_packStr (s : List ℕ) (h64 : s.length < 2 ^ 64) :
    unpackValue (packValue (.str s)) = .ok (9 + s.length, .str s) := by
  simp only [packValue]
  rw [unpackValue_cons]
  simp only [unpackValueCore]
  rw [if_pos (show (8:ℕ) ≤ (uint64ToBytes s.length ++ s).length from by
    simp [uint64ToBytes, beBytes_length])]
  rw [size_of_rest s.length h64 s]
  norm_num
  rw [drop8_of_rest s.length s, List.take_length]

theorem unpackValue_packDate (s : List ℕ) (h64 : s.length < 2 ^ 64) :
    unpackValue (packValue (.date s)) = .ok (9 + s.length, .date s) := by
  simp only [packValue]
  rw [unpackValue_cons]
  simp only [unpackValueCore]
  rw [if_pos (show (8:ℕ) ≤ (uint64ToBytes s.length ++ s).length from by
    simp [uint64ToBytes, beBytes_length])]
  rw [size_of_rest s.length h64 s]
  norm_num
  rw [drop8_of_rest s.length s, List.take_length]

theorem unpackValue_packJson (s : List ℕ) (h64 : s.length < 2 ^ 64) :
    unpackValue (packValue (.json s)) = .ok (9 + s.length, .json s) := by
  simp only [packValue]
  rw [unpackValue_cons]
  simp only [unpackValueCore]
  rw [if_pos (show (8:ℕ) ≤ (uint64ToBytes s.length ++ s).length from by
    simp [uint64ToBytes, beBytes_length])]
  rw [size_of_rest s.length h64 s]
  norm_num
  rw [drop8_of_rest s.length s, List.take_length]

theorem unpackValue_packFloat (bits : ℕ) (h64 : bits < 2 ^ 64) :
    unpackValue (packValue (.float64 bits)) = .ok (9, .float64 bits) := by
  simp only [packValue, uint64ToBytes]
  rw [unpackValue_cons]
  simp only [unpackValueCore, beBytes_length]
  norm_num
  rw [List.take_of_length_le (le_of_eq (beBytes_length 8 bits)),
    beNat_beBytes_of_lt 8 bits (by norm_num; omega)]

theorem unpackValue_packRegExp (src : List ℕ) (g i m s u y : Bool)
    (h64 : src.length < 2 ^ 64) :
    unpackValue (packValue (.regexp src g i m s u y)) =
      .ok (10 + src.length, .regexp src g i m s u y) := by
  simp only [packValue]
  rw [unpackValue_cons]
  simp only [unpackValueCore]
  rw [if_pos (show (8:ℕ) ≤
      (uint64ToBytes src.length ++ (flagsByte g i m s u y :: src)).length from by
    simp [uint64ToBytes, beBytes_length])]
  rw [size_of_rest src.length h64 (flagsByte g i m s u y :: src)]
  norm_num
  rw [if_neg (show
      ¬((uint64ToBytes src.length).length + (src.length + 1) + 1 < 10) from by
    simp only [uint64ToBytes, beBytes_length]; omega)]
  have hfl : (uint64ToBytes src.length ++ (flagsByte g i m s u y :: src))[8]? =
      some (flagsByte g i m s u y) := by
    rw [List.getElem?_append_right (by simp [uint64ToBytes, beBytes_length])]
    simp [uint64ToBytes, beBytes_length]
  rw [hfl]
  have hdrop9 :
      List.drop 9 (uint64ToBytes src.length ++ (flagsByte g i m s u y :: src)) =
        src := by
    rw [show (9:ℕ) = 8 + 1 from rfl, ← List.drop_drop, drop8_of_rest]
    simp
  rw [hdrop9, List.take_length]
  simp only [Option.getD_some]
  rw [flagsByte_g, flagsByte_i, flagsByte_m, flagsByte_s, flagsByte_u,
    flagsByte_y]

theorem unpackValue_packValue (v : Value) (h : Representable v) :
    ∃ c, unpackValue (packValue v) = .ok (c, v) := by
  cases v with
  | undef => exact ⟨1, rfl⟩
  | null => exact ⟨1, rfl⟩
  | nan => exact ⟨1, rfl⟩
  | bool b => cases b <;> exact ⟨1, rfl⟩
  | posInf => exact ⟨1, rfl⟩
  | negInf => exact ⟨1, rfl⟩
  | negZero => exact ⟨1, rfl⟩
  | int n =>
    simp only [Representable] at h
    simpa only [packValue] using unpackValue_packInt n h.1 h.2
  | float64 bits =>
    simp only [Representable] at h
    exact ⟨9, unpackValue_packFloat bits h⟩
  | typedArr k es =>
    simp only [Representable] at h
    exact ⟨9, unpackValue_packTypedArr k es h.1 h.2⟩
  | date s =>
    simp only [Representable] at h
    exact ⟨9 + s.length, unpackValue_packDate s h.1⟩
  | str s =>
    simp only [Representable] at h
    exact ⟨9 + s.length, unpackValue_packStr s h.1⟩
  | regexp src g i m s u y =>
    simp only [Representable] at h
    exact ⟨10 + src.length, unpackValue_packRegExp src g i m s u y h.1⟩
  | json s => exact absurd h (by simp [Representable])

theorem packInt_lt256 (n : ℤ) : ∀ b ∈ packInt n, b < 256 := by
  unfold packInt
  split_ifs <;> intro b hb <;>
    simp only [List.mem_cons, List.mem_append] at hb <;>
    rcases hb with rfl | hb
  all_goals
    first
    | omega
    | exact beBytes_lt _ _ b hb
    | (rcases hb with hb | hb
       · exact beBytes_lt 8 _ b hb
       · exact magBytes_lt _ b hb)

theorem flagsByte_lt256 (g i m s u y : Bool) : flagsByte g i m s u y < 256 := by
  cases g <;> cases i <;> cases m <;> cases s <;> cases u <;> cases y <;> decide

theorem taTag_lt256 (k : TAKind) : taTag k < 256 := by
  cases k <;> decide

theorem packValue_lt256 (v : Value) (h : Representable v) :
    ∀ b ∈ packValue v, b < 256 := by
  cases v with
  | int n => exact packInt_lt256 n
  | bool b =>
    cases b <;>
      (intro x hx; simp only [packValue, List.mem_singleton] at hx; omega)
  | float64 bits =>
    intro b hb
    simp only [packValue, List.mem_cons] at hb
    rcases hb with rfl | hb
    · omega
    · exact beBytes_lt 8 _ b hb
  | typedArr k es =>
    intro b hb
    simp only [packValue, List.mem_cons, List.mem_append] at hb
    rcases hb with rfl | hb | hb
    · have := taTag_lt256 k; omega
    · exact beBytes_lt 8 _ b hb
    · exact flatMap_leBytes_lt _ es b hb
  | date s =>
    simp only [Representable] at h
    intro b hb
    simp only [packValue, List.mem_cons, List.mem_append] at hb
    rcases hb with rfl | hb | hb
    · omega
    · exact beBytes_lt 8 _ b hb
    · exact h.2 b hb
  | str s =>
    simp only [Representable] at h
    intro b hb
    simp only [packValue, List.mem_cons, List.mem_append] at hb
    rcases hb with rfl | hb | hb
    · omega
    · exact beBytes_lt 8 _ b hb
    · exact h.2 b hb
  | json s => exact absurd h (by simp [Representable])
  | regexp src g i m s u y =>
    simp only [Representable] at h
    intro b hb
    simp only [packValue, List.mem_cons, List.mem_append] at hb
    rcases hb with rfl | hb | rfl | hb
    · omega
    · exact beBytes_lt 8 _ b hb
    · have := flagsByte_lt256 g i m s u y; omega
    · exact h.2 b hb
  | _ => intro b hb; simp only [packValue, List.mem_singleton] at hb; omega

theorem packValue_ne_nil (v : Value) : packValue v ≠ [] := by
  cases v with
  | bool b => cases b <;> simp [packValue]
  | int n => simp only [packValue]; unfold packInt; split_ifs <;> simp
  | _ => simp [packValue]

theorem map_mod_id (l : List ℕ) (h : ∀ b ∈ l, b < 256) :
    l.map (· % 256) = l := by
  induction l with
  | nil => rfl
  | cons x xs ih =>
    simp only [List.map_cons, List.cons.injEq]
    constructor
    · exact Nat.mod_eq_of_lt (h x (List.mem_cons_self x xs))
    · exact ih (fun b hb => h b (List.mem_cons_of_mem x hb))

theorem unpack_pack_single (v : Value) (h : Representable v) :
    unpack (pack [v]) = .ok [some v] := by
  have hpv : pack [v] = uint64ToBytes 1 ++ packValue v := by simp [pack]
  have hlt : ∀ b ∈ pack [v], b < 256 := by
    rw [hpv]
    intro b hb
    rcases List.mem_append.mp hb with hb | hb
    · exact beBytes_lt 8 1 b hb
    · exact packValue_lt256 v h b hb
  obtain ⟨c, hc⟩ := unpackValue_packValue v h
  have hne : (packValue v).length ≠ 0 := fun hz =>
    packValue_ne_nil v (List.eq_nil_of_length_eq_zero hz)
  have hlen : (uint64ToBytes 1 ++ packValue v).length =
      8 + (packValue v).length := by
    simp [uint64ToBytes, beBytes_length]
  unfold unpack
  rw [map_mod_id _ hlt, hpv]
  rw [if_neg (by omega)]
  rw [size_of_rest 1 (by norm_num) (packValue v)]
  have hstep : unpackGo (uint64ToBytes 1 ++ packValue v) 8 1 =
      if 8 < (uint64ToBytes 1 ++ packValue v).length then
        match unpackValue ((uint64ToBytes 1 ++ packValue v).drop 8) with
        | .error e => .error e
        | .ok (c1, v1) =>
          match unpackGo (uint64ToBytes 1 ++ packValue v) (8 + c1) 0 with
          | .error e => .error e
          | .ok vs => .ok (some v1 :: vs)
      else .ok (List.replicate 1 none) := rfl
  rw [hstep, if_pos (by omega), drop8_of_rest 1 (packValue v), hc]
  rfl

/-! ### Helper lemmas for the Channel state machine -/

theorem opname_text (o : ℕ) (h : Channel.opname o = .text) : o = 1 := by
  unfold Channel.opname at h
  split_ifs at h <;> simp_all

theorem opname_binary (o : ℕ) (h : Channel.opname o = .binary) : o = 2 := by
  unfold Channel.opname at h
  split_ifs at h <;> simp_all

/-- The fragmentation loop invariants of `encodeFrom`, proved by induction
on a length bound: the frame list is non-empty, every payload fits in `m`
bytes, the opcodes are the initial opcode followed by continuations, only
the last frame is final, and the payloads concatenate back to the data. -/
theorem encodeFrom_spec (m : ℕ) (hm : 1 ≤ m) (N : ℕ) :
    ∀ (data : List ℕ), data.length ≤ N → ∀ opc,
      encodeFrom opc m data ≠ [] ∧
      (∀ fr ∈ encodeFrom opc m data, fr.payload.length ≤ m) ∧
      (encodeFrom opc m data).map WSFrame.opcode =
        opc :: List.replicate ((encodeFrom opc m data).length - 1) 0 ∧
      (encodeFrom opc m data).map WSFrame.isFinal =
        List.replicate ((encodeFrom opc m data).length - 1) false ++ [true] ∧
      ((encodeFrom opc m data).map WSFrame.payload).flatten = data := by
  induction N with
  | zero =>
    intro data hlen opc
    have hd : data = [] := List.eq_nil_of_length_eq_zero (by omega)
    subst hd
    rw [encodeFrom, if_pos (by simp)]
    refine ⟨by simp, by simp, by simp, by simp, by simp⟩
  | succ N ih =>
    intro data hlen opc
    by_cases hc : data.length ≤ m
    · rw [encodeFrom, if_pos hc]
      refine ⟨by simp, ?_, by simp, by simp, by simp⟩
      intro fr hfr
      rw [List.mem_singleton] at hfr
      subst hfr
      exact hc
    · have hm0 : ¬m = 0 := by omega
      rw [encodeFrom, if_neg hc, if_neg hm0]
      obtain ⟨hne, hbound, hopc, hfin, hflat⟩ :=
        ih (data.drop m) (by simp; omega) 0
      have hlen1 : 1 ≤ (encodeFrom 0 m (data.drop m)).length :=
        List.length_pos.mpr hne
      refine ⟨by simp, ?_, ?_, ?_, ?_⟩
      · intro fr hfr
        rcases List.mem_cons.mp hfr with rfl | hfr
        · simp
        · exact hbound fr hfr
      · simp only [List.map_cons, List.length_cons]
        rw [hopc]
        rw [show (encodeFrom 0 m (data.drop m)).length + 1 - 1 =
          ((encodeFrom 0 m (data.drop m)).length - 1) + 1 by omega]
        rw [List.replicate_succ]
      · simp only [List.map_cons, List.length_cons]
        rw [hfin]
        rw [show (encodeFrom 0 m (data.drop m)).length + 1 - 1 =
          ((encodeFrom 0 m (data.drop m)).length - 1) + 1 by omega]
        rw [List.replicate_succ]
        simp
      · simp only [List.map_cons, List.flatten_cons]
        rw [hflat, List.take_append_drop]

/-! ### The claims -/

/-- C1: for every value v in the directly representable set (integers in
[-2^63+1, 2^64-1], IEEE-754 doubles, booleans, null, undefined, NaN,
±Infinity, -0, UTF-8 strings, dates, regular expressions, homogeneous
numeric typed arrays), `unpack (pack v)` yields the single value v again
under value semantics — the stored width and concrete numeric type may
differ, which the `Value` representation already quotients out. -/
theorem pack_unpack_roundtrip (v : Value) (h : Representable v) :
    unpack (pack [v]) = .ok [some v] :=
  unpack_pack_single v h

/-- Witness for C1 at the concrete value 5. -/
theorem pack_unpack_roundtrip_witness :
    Representable (.int 5) ∧ unpack (pack [.int 5]) = .ok [some (.int 5)] :=
  ⟨by norm_num [Representable],
    pack_unpack_roundtrip (.int 5) (by norm_num [Representable])⟩

/-- C2 (code bug): `pack(...args)` does prefix the stream with an 8-byte
big-endian count equal to `args.length`, but `unpack` does not always
recover that many entries: because `unpackValue` reports a consumed size of
9 for a typed-array entry (omitting the element bytes), decoding
`pack(new Uint8Array([99]), null)` resumes inside the element data and
throws `Unrecognised type identifier` instead of returning two entries. -/
theorem unpack_pack_count_bug :
    pack [.typedArr .u8 [99], .null] =
      [0, 0, 0, 0, 0, 0, 0, 2, 16, 0, 0, 0, 0, 0, 0, 0, 1, 99, 1] ∧
    (pack [.typedArr .u8 [99], .null]).take 8 = uint64ToBytes 2 ∧
    unpack (pack [.typedArr .u8 [99], .null]) =
      .error "TypeError: Unrecognised type identifier" :=
  ⟨rfl, rfl, rfl⟩

/-- C3 (code bug): for `new Uint16Array([1])` the packed entry is
`[17, 0,0,0,0,0,0,0,2, 1,0]`: the 8-byte field after the tag holds 2 — the
byte length, not the element count 1 claimed by the format description —
the element bytes are in platform little-endian order (`[1, 0]`, where
big-endian would be `[0, 1]`), and `unpackValue` reports a consumed length
of 9, not the entry's full 11 bytes. -/
theorem typedArray_entry_layout_bug :
    packValue (.typedArr .u16 [1]) = [17, 0, 0, 0, 0, 0, 0, 0, 2, 1, 0] ∧
    unpackValue (packValue (.typedArr .u16 [1])) =
      .ok (9, .typedArr .u16 [1]) ∧
    (packValue (.typedArr .u16 [1])).length = 11 :=
  ⟨rfl, rfl, rfl⟩

/-- C4 counterexample: a text frame with empty payload and isFinal = false
leaves a message pending (`inputPending = true`) with an empty buffer; the
next text frame then produces only a `ws:message` observation — no
"incomplete-message" is emitted even though a message was pending, because
`readFrame` tests `inputBuffer.length`, not the pending flag. -/
theorem incomplete_message_pending_cx :
    Channel.readFrame ChannelState.initial ⟨1, false, []⟩ =
      ({ inputPending := true, inputType := .text }, []) ∧
    Channel.readFrame { inputPending := true, inputType := .text }
        ⟨1, true, [104, 105]⟩ =
      ({ inputType := .text }, [.emit (.message .text [104, 105])]) :=
  ⟨rfl, rfl⟩

/-- C4 (amended): whenever a text or binary frame arrives on an open
channel whose accumulated `inputBuffer` is NON-EMPTY (rather than: whose
message is pending), `readFrame` first emits "incomplete-message" carrying
the stale buffer and its type, and then behaves exactly as it would have
from the same state with an empty buffer — the stale input is observable
and never merged into the new message. -/
theorem incomplete_message_nonempty_buffer (st : ChannelState) (f : WSFrame)
    (h : st.closed = false) (hb : st.inputBuffer ≠ [])
    (hop : Channel.opname f.opcode = .text ∨
      Channel.opname f.opcode = .binary) :
    Channel.readFrame st f =
      ((Channel.readFrame {st with inputBuffer := []} f).1,
        .emit (.incompleteMessage st.inputBuffer st.inputType) ::
          (Channel.readFrame {st with inputBuffer := []} f).2) := by
  rcases hop with hop | hop
  · have hoc := opname_text f.opcode hop
    unfold Channel.readFrame
    rw [hop, h]
    simp only [Bool.false_eq_true, if_false]
    unfold Channel.dataStart Channel.dataSection
    simp [h, hb, hoc]
    split <;> simp [h]
  · have hoc := opname_binary f.opcode hop
    unfold Channel.readFrame
    rw [hop, h]
    simp only [Bool.false_eq_true, if_false]
    unfold Channel.dataStart Channel.dataSection
    simp [h, hb, hoc]
    split <;> simp [h]

/-- Witness for C4 (amended) at a concrete pending state. -/
theorem incomplete_message_nonempty_buffer_witness :
    ({ inputBuffer := [1], inputPending := true } : ChannelState).closed =
      false ∧
    ({ inputBuffer := [1], inputPending := true } :
      ChannelState).inputBuffer ≠ [] ∧
    (Channel.opname (⟨2, true, [9]⟩ : WSFrame).opcode = .text ∨
      Channel.opname (⟨2, true, [9]⟩ : WSFrame).opcode = .binary) ∧
    Channel.readFrame { inputBuffer := [1], inputPending := true }
        ⟨2, true, [9]⟩ =
      ((Channel.readFrame
          {({ inputBuffer := [1], inputPending := true } : ChannelState) with
            inputBuffer := []} ⟨2, true, [9]⟩).1,
        .emit (.incompleteMessage
            ({ inputBuffer := [1], inputPending := true } :
              ChannelState).inputBuffer
            ({ inputBuffer := [1], inputPending := true } :
              ChannelState).inputType) ::
          (Channel.readFrame
            {({ inputBuffer := [1], inputPending := true } :
              ChannelState) with inputBuffer := []} ⟨2, true, [9]⟩).2) :=
  ⟨rfl, by simp, Or.inr rfl,
    incomplete_message_nonempty_buffer _ _ rfl (by simp) (Or.inr rfl)⟩

/-- C5: once a Channel's `closed` flag is true, `readBytes`, `readFrame`,
`send`, `sendNext`, `ping` and `pong` are all no-ops — the state is
unchanged and no effect (emission, socket write, socket end) is produced —
and a further `close()` call likewise performs no additional action, so
`close` is idempotent. -/
theorem closed_channel_noop (st : ChannelState) (h : st.closed = true)
    (decodeFn : List ℕ → List WSFrame × List ℕ) (data : List ℕ) (f : WSFrame)
    (d : Channel.SendData) (code : ℕ) (reason : List ℕ) :
    Channel.readBytes decodeFn st data = (st, []) ∧
    Channel.readFrame st f = (st, []) ∧
    Channel.send st d = (st, []) ∧
    Channel.sendNext st = (st, []) ∧
    Channel.ping st = (st, []) ∧
    Channel.pong st = (st, []) ∧
    Channel.close st code reason = (st, []) := by
  refine ⟨?_, ?_, ?_, ?_, ?_, ?_, ?_⟩
  · simp [Channel.readBytes, h]
  · simp [Channel.readFrame, h]
  · simp [Channel.send, h]
  · simp [Channel.sendNext, h]
  · simp [Channel.ping, h]
  · simp [Channel.pong, h]
  · simp [Channel.close, h]

/-- Witness for C5 at a concrete closed channel. -/
theorem closed_channel_noop_witness :
    ({ closed := true } : ChannelState).closed = true ∧
    Channel.readFrame { closed := true } ⟨9, true, []⟩ =
      ({ closed := true }, []) ∧
    Channel.close { closed := true } 1000 [] = ({ closed := true }, []) :=
  ⟨rfl,
    (closed_channel_noop { closed := true } rfl (fun b => ([], b)) []
      ⟨9, true, []⟩ (.raw []) 1000 []).2.1,
    (closed_channel_noop { closed := true } rfl (fun b => ([], b)) []
      ⟨9, true, []⟩ (.raw []) 1000 []).2.2.2.2.2.2⟩

/-- C6: for every message and every maxSize N ≥ 1, `encode` yields a
non-empty frame list whose payloads are each at most N bytes, whose first
frame carries the text (0x01) or binary (0x02) opcode with opcode 0x00 on
every later frame, whose `isFinal` is true exactly on the last frame, and
whose payloads concatenate to the original message bytes. -/
theorem encode_fragmentation (isText : Bool) (data : List ℕ) (m : ℕ)
    (hm : 1 ≤ m) :
    encode isText data m ≠ [] ∧
    (∀ fr ∈ encode isText data m, fr.payload.length ≤ m) ∧
    (encode isText data m).map WSFrame.opcode =
      (if isText then 1 else 2) ::
        List.replicate ((encode isText data m).length - 1) 0 ∧
    (encode isText data m).map WSFrame.isFinal =
      List.replicate ((encode isText data m).length - 1) false ++ [true] ∧
    ((encode isText data m).map WSFrame.payload).flatten = data :=
  encodeFrom_spec m hm data.length data le_rfl _

/-- Witness for C6 at a three-byte text message with maxSize 2. -/
theorem encode_fragmentation_witness :
    1 ≤ 2 ∧
    (encode true [97, 98, 99] 2 ≠ [] ∧
    (∀ fr ∈ encode true [97, 98, 99] 2, fr.payload.length ≤ 2) ∧
    (encode true [97, 98, 99] 2).map WSFrame.opcode =
      (if true then 1 else 2) ::
        List.replicate ((encode true [97, 98, 99] 2).length - 1) 0 ∧
    (encode true [97, 98, 99] 2).map WSFrame.isFinal =
      List.replicate ((encode true [97, 98, 99] 2).length - 1) false ++
        [true] ∧
    ((encode true [97, 98, 99] 2).map WSFrame.payload).flatten =
      [97, 98, 99]) :=
  ⟨by norm_num, encode_fragmentation true [97, 98, 99] 2 (by norm_num)⟩

/-- C7 counterexample: a truncated stream does NOT throw.  A bare 8-byte
count field announcing one entry returns a one-slot array with the entry
missing, and a string entry whose declared length (5) exceeds the bytes
present (1) silently returns the clamped one-byte string — both are
partial results delivered without an error. -/
theorem unpack_truncated_no_throw_cx :
    unpack [0, 0, 0, 0, 0, 0, 0, 1] = .ok [none] ∧
    unpack [0, 0, 0, 0, 0, 0, 0, 1, 30, 0, 0, 0, 0, 0, 0, 0, 5, 97] =
      .ok [some (.str [97])] :=
  ⟨rfl, rfl⟩

/-- C7 (amended): `unpackValue` throws on an empty buffer, `unpack` throws
on a stream shorter than its 8-byte count field, and an entry whose type
tag is unrecognised (above 0x20) throws; but a stream whose entries end
before the declared count is exhausted returns a partial array (missing
entries unset) and over-declared variable-length payloads are clamped
rather than rejected. -/
theorem unpack_error_spec :
    unpackValue [] = .error "TypeError: Cannot unpack empty buffer" ∧
    (∀ bs : List ℕ, bs.length < 8 → unpack bs = .error "RangeError") ∧
    (∀ t rest, 32 < t →
      unpackValue (t :: rest) =
        .error "TypeError: Unrecognised type identifier") := by
  refine ⟨rfl, ?_, ?_⟩
  · intro bs h
    unfold unpack
    rw [if_pos (by simpa using h)]
  · intro t rest ht
    rw [unpackValue_cons]
    simp only [unpackValueCore]
    rw [if_neg (show ¬t = 0 by omega), if_neg (show ¬t = 1 by omega),
      if_neg (show ¬t = 2 by omega), if_neg (show ¬t = 3 by omega),
      if_neg (show ¬t = 4 by omega), if_neg (show ¬t = 5 by omega),
      if_neg (show ¬t = 6 by omega), if_neg (show ¬t = 7 by omega),
      if_neg (show ¬t = 8 by omega), if_neg (show ¬t = 9 by omega),
      if_neg (show ¬t = 10 by omega), if_neg (show ¬t = 11 by omega),
      if_neg (show ¬t = 12 by omega), if_neg (show ¬t = 13 by omega),
      if_neg (show ¬t = 14 by omega), if_neg (show ¬t = 15 by omega),
      if_neg (show ¬t = 26 by omega),
      if_neg (show ¬(16 ≤ t ∧ t ≤ 25) by omega),
      if_neg (show ¬(t = 27 ∨ t = 28) by omega),
      if_neg (show ¬t = 31 by omega), if_neg (show ¬t = 29 by omega),
      if_neg (show ¬t = 30 by omega), if_neg (show ¬t = 32 by omega)]

/-- Witness for C7 (amended) at concrete short and unrecognised inputs. -/
theorem unpack_error_spec_witness :
    ([1] : List ℕ).length < 8 ∧
    unpack [1] = .error "RangeError" ∧
    32 < 33 ∧
    unpackValue (33 :: []) =
      .error "TypeError: Unrecognised type identifier" :=
  ⟨by norm_num, unpack_error_spec.2.1 [1] (by norm_num), by norm_num,
    unpack_error_spec.2.2 33 [] (by norm_num)⟩

/-- C8 counterexample: assigning 2^31 to `maxSize` stores 1, not 2^31 —
the `~~Number(to)` step truncates through ToInt32, wrapping 2^31 to -2^31
before clamping — even though 2^31 clamped into
[1, Number.MAX_SAFE_INTEGER] would be 2^31 itself. -/
theorem maxSize_toInt32_cx :
    Channel.setMaxSize (2 ^ 31) = 1 ∧
    Channel.clamp (2 ^ 31) 1 (maxSafeInteger : ℤ) = 2 ^ 31 ∧
    Channel.setMaxSize (2 ^ 31) ≠ 2 ^ 31 := by decide

/-- C8 (amended): the stored `maxSize` equals `clamp(ToInt32(v), 1,
Number.MAX_SAFE_INTEGER)`; consequently exactly the integers v with
1 ≤ v < 2^31 are stored unchanged. -/
theorem setMaxSize_spec (v : ℤ) :
    Channel.setMaxSize v =
      min (max (Channel.toInt32 v) 1) (maxSafeInteger : ℤ) ∧
    (1 ≤ v → v < 2 ^ 31 → Channel.setMaxSize v = v) := by
  constructor
  · rfl
  · intro h1 h2
    unfold Channel.setMaxSize Channel.clamp Channel.toInt32 maxSafeInteger
    have hmod : (v + 2 ^ 31) % 2 ^ 32 = v + 2 ^ 31 :=
      Int.emod_eq_of_lt (by omega) (by omega)
    rw [hmod]
    push_cast
    omega

/-- Witness for C8 (amended) at v = 5. -/
theorem setMaxSize_spec_witness :
    (1 : ℤ) ≤ 5 ∧ (5 : ℤ) < 2 ^ 31 ∧ Channel.setMaxSize 5 = 5 :=
  ⟨by norm_num, by norm_num,
    (setMaxSize_spec 5).2 (by norm_num) (by norm_num)⟩

/-- C9 counterexample: ids are not monotonic across the server's lifetime.
Upgrading socket 1 on an empty server assigns id 1; after that channel
closes (removing it from the table), upgrading socket 2 assigns id 1
again — the second id is not greater than the first, and ids repeat. -/
theorem upgrade_id_reuse_cx :
    (Server.upgrade ⟨[]⟩ 1).2 = 1 ∧
    (Server.upgrade (Server.removeChannel (Server.upgrade ⟨[]⟩ 1).1 1) 2).2 =
      1 :=
  ⟨rfl, rfl⟩

/-- C9 (amended): each channel registered by `upgrade` gets an id equal to
the table size immediately after its insertion (previous size + 1, with
the socket appended to the table), and across consecutive upgrades with no
intervening removal the ids strictly increase; after a removal, ids can
repeat. -/
theorem upgrade_id_spec (st : Server.ServerState) (s1 s2 : ℕ)
    (h1 : s1 ∉ st.channels) (h2 : s2 ∉ (Server.upgrade st s1).1.channels) :
    (Server.upgrade st s1).2 = st.channels.length + 1 ∧
    (Server.upgrade st s1).1.channels = st.channels ++ [s1] ∧
    (Server.upgrade st s1).2 <
      (Server.upgrade (Server.upgrade st s1).1 s2).2 := by
  simp only [Server.upgrade, if_neg h1] at h2 ⊢
  rw [if_neg h2]
  simp

/-- Witness for C9 (amended) on an empty server with sockets 1 and 2. -/
theorem upgrade_id_spec_witness :
    (1 : ℕ) ∉ (⟨[]⟩ : Server.ServerState).channels ∧
    (2 : ℕ) ∉ (Server.upgrade ⟨[]⟩ 1).1.channels ∧
    ((Server.upgrade ⟨[]⟩ 1).2 = (⟨[]⟩ : Server.ServerState).channels.length + 1 ∧
    (Server.upgrade ⟨[]⟩ 1).1.channels =
      (⟨[]⟩ : Server.ServerState).channels ++ [1] ∧
    (Server.upgrade ⟨[]⟩ 1).2 <
      (Server.upgrade (Server.upgrade ⟨[]⟩ 1).1 2).2) :=
  ⟨by simp, by decide, upgrade_id_spec ⟨[]⟩ 1 2 (by simp) (by decide)⟩

/-- C10: receiving a close frame on an open channel sets the `closed` flag
and emits exactly one `ws:close` observation — with the big-endian status
code from the first two payload bytes and the remaining bytes as the
reason when the payload is non-empty, with no arguments otherwise — and
nothing else: no close frame is written in reply, the socket is not ended,
and no other channel state changes. -/
theorem close_frame_effect (st : ChannelState) (f : WSFrame)
    (h : st.closed = false) (hop : f.opcode = 8) :
    Channel.readFrame st f =
      ({st with closed := true},
        [.emit (.close (if f.payload.length ≠ 0
            then some (Channel.closeCode f.payload, f.payload.drop 2)
            else none))]) := by
  unfold Channel.readFrame
  rw [h]
  simp only [Bool.false_eq_true, if_false]
  simp only [hop, Channel.opname]
  norm_num
  unfold Channel.dataSection
  rw [hop]
  norm_num
  split <;> rfl

/-- Witness for C10 at a close frame with status code 1000. -/
theorem close_frame_effect_witness :
    ChannelState.initial.closed = false ∧
    (⟨8, true, [3, 232]⟩ : WSFrame).opcode = 8 ∧
    Channel.readFrame ChannelState.initial ⟨8, true, [3, 232]⟩ =
      ({ChannelState.initial with closed := true},
        [.emit (.close (if (⟨8, true, [3, 232]⟩ : WSFrame).payload.length ≠ 0
            then some
              (Channel.closeCode (⟨8, true, [3, 232]⟩ : WSFrame).payload,
                (⟨8, true, [3, 232]⟩ : WSFrame).payload.drop 2)
            else none))]) :=
  ⟨rfl, rfl, close_frame_effect ChannelState.initial ⟨8, true, [3, 232]⟩ rfl rfl⟩
